import Mathlib

set_option maxRecDepth 8000

namespace DirGraph

/-- An edge of the weighted directed graph: a target node position together
with a weight drawn from a linearly ordered type W standing in for the C++
double (every weight appearing in the specification is an exact small
value). Edges compare lexicographically by (target, weight), mirroring the
defaulted three-way comparison of graph_edge; the C++ field m_to is spelled
tgt here. -/
structure Edge (W : Type) where
  tgt : Nat
  weight : W
deriving DecidableEq

variable {T W : Type}

/-- Strict lexicographic order on edges, as generated by the defaulted
comparison operator on the fields (m_to, m_weight). -/
def edgeLt [LinearOrder W] (a b : Edge W) : Bool :=
  decide (a.tgt < b.tgt) || (decide (a.tgt = b.tgt) && decide (a.weight < b.weight))

/-- Ordered-set insertion into a sorted duplicate-free list: the model of
std::set insertion, where an already-present element is not inserted again. -/
def osetInsert {α : Type} [DecidableEq α] (lt : α → α → Bool) (a : α) :
    List α → List α
  | [] => [a]
  | b :: rest =>
    if lt a b then a :: b :: rest
    else if a = b then b :: rest
    else b :: osetInsert lt a rest

/-- Ordered multiset insertion into a sorted list: the model of pushing onto
a priority queue, where duplicates are kept. -/
def pqInsert {α : Type} (lt : α → α → Bool) (a : α) : List α → List α
  | [] => [a]
  | b :: rest => if lt a b then a :: b :: rest else b :: pqInsert lt a rest

/-- A graph node: the stored value and the ordered adjacency set of
outgoing edges (weighted_graph_node). -/
structure Node (T W : Type) where
  value : T
  adj : List (Edge W)
deriving DecidableEq

/-- The weighted directed graph: a dense, position-addressed sequence of
nodes (the m_nodes vector of weighted_directed_graph). -/
structure Graph (T W : Type) where
  nodes : List (Node T W)
deriving DecidableEq

/-- The default-constructed graph. -/
def Graph.empty : Graph T W := ⟨[]⟩

/-- The stored node values, in storage order. -/
def Graph.values (g : Graph T W) : List T := g.nodes.map Node.value

/-- size(): the number of nodes. -/
def Graph.size (g : Graph T W) : Nat := g.nodes.length

/-- The position of the first node carrying the given value: the linear scan
performed by findNode via std::find_if. -/
def findIdxAux [DecidableEq T] (v : T) : List (Node T W) → Option Nat
  | [] => none
  | n :: rest => if n.value = v then some 0 else (findIdxAux v rest).map (· + 1)

/-- findNode(value): the index of the node holding the value, if any. -/
def findNode [DecidableEq T] (g : Graph T W) (v : T) : Option Nat :=
  findIdxAux v g.nodes

/-- insert(value): scan for an existing equal value and return its position
with inserted = false, otherwise append a fresh node at the back. The result
is the graph together with the position and the inserted flag. -/
def insertNode [DecidableEq T] (g : Graph T W) (v : T) :
    Graph T W × Nat × Bool :=
  match findNode g v with
  | some i => (g, i, false)
  | none => (⟨g.nodes ++ [⟨v, []⟩]⟩, g.nodes.length, true)

/-- Range insert: every element of the range goes through insertNode in
turn, exactly as the std::copy through an insert_iterator does. -/
def insertList [DecidableEq T] (g : Graph T W) (vs : List T) : Graph T W :=
  vs.foldl (fun h v => (insertNode h v).1) g

/-- Rewrite the element at one position of a list, leaving the rest alone. -/
def modifyNth {α : Type} (f : α → α) : Nat → List α → List α
  | _, [] => []
  | 0, a :: l => f a :: l
  | n + 1, a :: l => a :: modifyNth f n l

/-- insert_edge(from, to, weight): fails when either endpoint value is
absent; otherwise set-inserts the edge (to_index, weight) into the source
node's adjacency set and reports whether it was newly added. -/
def insertEdge [DecidableEq T] [LinearOrder W] (g : Graph T W) (a b : T)
    (w : W) : Graph T W × Bool :=
  match findNode g a, findNode g b with
  | some i, some j =>
    let e : Edge W := ⟨j, w⟩
    let fresh := match g.nodes[i]? with
      | some n => decide (e ∉ n.adj)
      | none => false
    (⟨modifyNth (fun n => ⟨n.value, osetInsert edgeLt e n.adj⟩) i g.nodes⟩, fresh)
  | _, _ => (g, false)

/-- One adjacency set rewritten by remove_all_links_to for the removal of the
node at position i: first erase every edge whose target is i, then drain the
set to a vector, decrement every target above i, and rebuild the set by
reinserting the drained edges. -/
def removeLinks [LinearOrder W] (i : Nat) (adj : List (Edge W)) :
    List (Edge W) :=
  let filtered := adj.filter fun e => decide (e.tgt ≠ i)
  let edges := filtered.map fun e =>
    if i < e.tgt then Edge.mk (e.tgt - 1) e.weight else e
  edges.foldl (fun s e => osetInsert edgeLt e s) []

/-- remove_all_links_to: apply the adjacency repair for position i to every
node of the graph. -/
def removeAllLinksTo [LinearOrder W] (g : Graph T W) (i : Nat) : Graph T W :=
  ⟨g.nodes.map fun n => ⟨n.value, removeLinks i n.adj⟩⟩

/-- erase(value): locate the node; when present, repair every adjacency set
and remove the node from storage, reporting success. -/
def eraseValue [DecidableEq T] [LinearOrder W] (g : Graph T W) (v : T) :
    Graph T W × Bool :=
  match findNode g v with
  | none => (g, false)
  | some i => (⟨(removeAllLinksTo g i).nodes.eraseIdx i⟩, true)

/-- erase(iterator): erase the node at a position; the end position is a
no-op returning the end position. A returned position together with the new
graph plays the role of the returned iterator. -/
def eraseIter [LinearOrder W] (g : Graph T W) (pos : Nat) : Graph T W × Nat :=
  if pos = g.nodes.length then (g, pos)
  else (⟨(removeAllLinksTo g pos).nodes.eraseIdx pos⟩, pos)

/-- erase(first, last): run the adjacency repair for every position of the
range while the node vector is still unchanged (skipping the end position),
then remove the whole range of nodes at once; the returned position is
first, where the vector erase leaves its iterator. -/
def eraseRange [LinearOrder W] (g : Graph T W) (first last : Nat) :
    Graph T W × Nat :=
  let g2 := (List.range' first (last - first)).foldl
    (fun h k => if k = h.nodes.length then h else removeAllLinksTo h k) g
  (⟨g2.nodes.take first ++ g2.nodes.drop last⟩, first)

/-- erase_edge(from, to): fails when either endpoint value is absent;
otherwise drop every edge of the source node whose target is the target
node's position, regardless of weight, and report true. -/
def eraseEdge [DecidableEq T] (g : Graph T W) (a b : T) : Graph T W × Bool :=
  match findNode g a, findNode g b with
  | some i, some j =>
    (⟨modifyNth (fun n => ⟨n.value, n.adj.filter fun e => decide (e.tgt ≠ j)⟩)
        i g.nodes⟩, true)
  | _, _ => (g, false)

/-- clear(): empty the node store. -/
def clearG (_ : Graph T W) : Graph T W := ⟨[]⟩

/-- swap(): exchange the node stores of two graphs. -/
def swapG (g h : Graph T W) : Graph T W × Graph T W := (h, g)

/-- The strict order used by std::set of node values. -/
def valueLt [LinearOrder T] (a b : T) : Bool := decide (a < b)

/-- The strict lexicographic order of std::pair of a value and a weight. -/
def pairLt [LinearOrder T] [LinearOrder W] (a b : T × W) : Bool :=
  decide (a.1 < b.1) || (decide (a.1 = b.1) && decide (a.2 < b.2))

/-- The strict lexicographic order of std::pair of a tentative distance and
a value, the priority-queue key of both Dijkstra variants. -/
def distLt [LinearOrder T] [LinearOrder W] (a b : W × T) : Bool :=
  decide (a.1 < b.1) || (decide (a.1 = b.1) && decide (a.2 < b.2))

/-- get_adjacent_nodes_values on a raw adjacency set: resolve every target
position to its stored value and collect the values into an ordered set. -/
def adjValuesOfAdj [LinearOrder T] (g : Graph T W) (adj : List (Edge W)) :
    List T :=
  adj.foldl (fun s e =>
    match g.nodes[e.tgt]? with
    | some n => osetInsert valueLt n.value s
    | none => s) []

/-- get_adjacent_nodes_values(value): the value-level adjacency set, empty
when the value is absent from the graph. -/
def adjacentValues [LinearOrder T] (g : Graph T W) (v : T) : List T :=
  match findNode g v with
  | none => []
  | some i =>
    match g.nodes[i]? with
    | none => []
    | some n => adjValuesOfAdj g n.adj

/-- get_adjacent_nodes_values_and_weights(value): neighbor values paired
with the connecting edge's weight, as an ordered set. -/
def adjacentValuesAndWeights [LinearOrder T] [LinearOrder W] (g : Graph T W)
    (v : T) : List (T × W) :=
  match findNode g v with
  | none => []
  | some i =>
    match g.nodes[i]? with
    | none => []
    | some n =>
      n.adj.foldl (fun s e =>
        match g.nodes[e.tgt]? with
        | some m => osetInsert pairLt (m.value, e.weight) s
        | none => s) []

/-- The loop body of operator== for one left-hand node: the right-hand graph
must hold the same value, with an equal value-level adjacency set. -/
def nodeOKB [LinearOrder T] (g1 g2 : Graph T W) (node : Node T W) : Bool :=
  match findNode g2 node.value with
  | none => false
  | some j =>
    match g2.nodes[j]? with
    | none => false
    | some rn => decide (adjValuesOfAdj g1 node.adj = adjValuesOfAdj g2 rn.adj)

/-- operator== : the sizes agree and every left-hand node's value occurs on
the right with an equal value-level adjacency set. -/
def graphEq [LinearOrder T] (g1 g2 : Graph T W) : Bool :=
  decide (g1.nodes.length = g2.nodes.length) && g1.nodes.all (nodeOKB g1 g2)

/-- The positional invariant of the node store: every edge stored in any
adjacency set targets a position strictly below the number of nodes. -/
def edgesValidB (g : Graph T W) : Bool :=
  g.nodes.all fun n => n.adj.all fun e => decide (e.tgt < g.nodes.length)

/-- Association-list lookup, the model of reading a std::map. -/
def alookup {β : Type} [DecidableEq T] (m : List (T × β)) (k : T) : Option β :=
  (m.find? fun p => decide (p.1 = k)).map Prod.snd

/-- Association-list write, the model of assigning through std::map
subscripting: replace the bound value or append a fresh binding. -/
def aupdate {β : Type} [DecidableEq T] :
    List (T × β) → T → β → List (T × β)
  | [], k, v => [(k, v)]
  | (k2, v2) :: rest, k, v =>
    if k2 = k then (k, v) :: rest else (k2, v2) :: aupdate rest k v

/-- The relaxation of every outgoing neighbor of one finalized node, the
body shared by both Dijkstra variants: the fold threads the priority queue,
the distance map and the predecessor map through the neighbors exactly as
the C++ loop body does. -/
def relaxAll [LinearOrder T] [LinearOrder W] [Add W] (g : Graph T W) (cur : T)
    (d : W) (st : List (W × T) × List (T × W) × List (T × T)) :
    List (W × T) × List (T × W) × List (T × T) :=
  (adjacentValuesAndWeights g cur).foldl (fun s nw =>
    let nd := d + nw.2
    let better := match alookup s.2.1 nw.1 with
      | none => true
      | some old => decide (nd < old)
    if better then
      (pqInsert distLt (nd, nw.1) s.1, aupdate s.2.1 nw.1 nd,
        aupdate s.2.2 nw.1 cur)
    else s) st

/-- The main loop of the target-directed Dijkstra, with explicit fuel: pop
the minimum, skip finalized nodes, stop with the predecessor map when the
queue empties or the target is popped, otherwise relax the neighbors. -/
def dijkstraLoopT [LinearOrder T] [LinearOrder W] [Add W] (g : Graph T W)
    (endv : T) :
    Nat → List (W × T) → List (T × W) → List (T × T) → List T →
    Option (List (T × T))
  | 0, _, _, _, _ => none
  | _ + 1, [], _, prev, _ => some prev
  | fuel + 1, (d, cur) :: pq, dist, prev, visited =>
    if cur ∈ visited then dijkstraLoopT g endv fuel pq dist prev visited
    else if cur = endv then some prev
    else
      let s := relaxAll g cur d (pq, dist, prev)
      dijkstraLoopT g endv fuel s.1 s.2.1 s.2.2 (cur :: visited)

/-- The main loop of the all-destinations Dijkstra, which returns the
distance map when the queue empties. -/
def dijkstraLoopA [LinearOrder T] [LinearOrder W] [Add W] (g : Graph T W) :
    Nat → List (W × T) → List (T × W) → List T → Option (List (T × W))
  | 0, _, _, _ => none
  | _ + 1, [], dist, _ => some dist
  | fuel + 1, (d, cur) :: pq, dist, visited =>
    if cur ∈ visited then dijkstraLoopA g fuel pq dist visited
    else
      let s := relaxAll g cur d (pq, dist, [])
      dijkstraLoopA g fuel s.1 s.2.1 (cur :: visited)

/-- dijkstra(graph, start): the full tentative-distance map. -/
def dijkstraAll [LinearOrder T] [LinearOrder W] [Add W] [Zero W]
    (g : Graph T W) (start : T) (fuel : Nat) : Option (List (T × W)) :=
  dijkstraLoopA g fuel [(0, start)] [(start, 0)] []

/-- The path reconstruction loop of the target-directed Dijkstra: walk the
predecessor map from the target back to the start, collecting nodes; a
missing entry yields the default-constructed value, exactly as std::map
subscripting inserts one. The accumulator collects at the front, so the list
is already in start-to-target order when the start is reached. -/
def recon [DecidableEq T] (prev : List (T × T)) (dflt start : T) :
    Nat → T → List T → Option (List T)
  | 0, _, _ => none
  | fuel + 1, cur, acc =>
    if cur = start then some (start :: acc)
    else recon prev dflt start fuel ((alookup prev cur).getD dflt) (cur :: acc)

/-- dijkstra(graph, start, end): membership checks on both endpoints (an
absent endpoint yields the empty path), then the search loop, then the
predecessor walk. -/
def dijkstraTarget [LinearOrder T] [LinearOrder W] [Add W] [Zero W]
    (g : Graph T W) (start endv dflt : T) (searchFuel reconFuel : Nat) :
    Option (List T) :=
  if start ∉ g.values then some []
  else if endv ∉ g.values then some []
  else
    match dijkstraLoopT g endv searchFuel [(0, start)] [(start, 0)] [] [] with
    | none => none
    | some prev => recon prev dflt start reconFuel endv []

/-- The four-node graph of the reindex example: values a, b, c, d rendered
as 1, 2, 3, 4 with edges a to c, b to c and b to d. -/
def gReindex : Graph ℤ ℤ :=
  let g0 := insertList Graph.empty [1, 2, 3, 4]
  let g1 := (insertEdge g0 1 3 1).1
  let g2 := (insertEdge g1 2 3 1).1
  (insertEdge g2 2 4 1).1

/-- The eight-node weighted graph of the Dijkstra scenario. -/
def gDijkstra : Graph ℤ ℤ :=
  let g0 := insertList Graph.empty [11, 22, 33, 44, 55, 66, 77, 88]
  let g1 := (insertEdge g0 11 22 2).1
  let g2 := (insertEdge g1 11 55 1).1
  let g3 := (insertEdge g2 22 33 3).1
  let g4 := (insertEdge g3 22 66 1).1
  let g5 := (insertEdge g4 33 44 1).1
  let g6 := (insertEdge g5 44 88 9).1
  let g7 := (insertEdge g6 55 66 1).1
  let g8 := (insertEdge g7 55 77 3).1
  let g9 := (insertEdge g8 66 77 1).1
  (insertEdge g9 77 44 1).1

/-- A two-node graph with no edges, on which the target-directed Dijkstra
is asked for an unreachable target. -/
def gTwo : Graph ℤ ℤ := insertList Graph.empty [1, 2]

/-- Three nodes with one long edge, the input on which the range erase
leaves an out-of-range edge target. -/
def gThree : Graph ℤ ℤ :=
  (insertEdge (insertList Graph.empty [10, 20, 30]) 10 30 1).1

/-- Four nodes with one long edge, the input on which the range erase and
the one-at-a-time erase disagree. -/
def gFour : Graph ℤ ℤ :=
  (insertEdge (insertList Graph.empty [1, 2, 3, 4]) 1 4 1).1

/-- Membership in an ordered-set insertion is membership in the old set or
equality with the inserted element, whatever the comparison function is. -/
theorem mem_osetInsert {α : Type} [DecidableEq α] (lt : α → α → Bool)
    (a x : α) (l : List α) : x ∈ osetInsert lt a l ↔ x = a ∨ x ∈ l := by
  induction l with
  | nil => simp [osetInsert]
  | cons b rest ih =>
    simp only [osetInsert]
    split_ifs with h1 h2
    · simp [List.mem_cons]
    · subst h2
      simp only [List.mem_cons]
      tauto
    · simp only [List.mem_cons, ih]
      tauto

/-- Membership after folding ordered-set insertions of a whole list. -/
theorem mem_foldl_osetInsert {α : Type} [DecidableEq α] (lt : α → α → Bool)
    (x : α) : ∀ (l init : List α),
    (x ∈ l.foldl (fun s e => osetInsert lt e s) init ↔ x ∈ l ∨ x ∈ init) := by
  intro l
  induction l with
  | nil => intro init; simp
  | cons e rest ih =>
    intro init
    rw [List.foldl_cons, ih, mem_osetInsert]
    simp only [List.mem_cons]
    tauto

/-- The declarative reading of the adjacency repair: an edge survives into
the rewritten set exactly when it was already there with a target below the
removed position, or is the decrement of a stored edge with target above the
removed position; weights are untouched. -/
theorem mem_removeLinks [LinearOrder W] (i : Nat) (adj : List (Edge W))
    (e : Edge W) :
    e ∈ removeLinks i adj ↔
      (e ∈ adj ∧ e.tgt < i) ∨
      (Edge.mk (e.tgt + 1) e.weight ∈ adj ∧ i ≤ e.tgt) := by
  obtain ⟨et, ew⟩ := e
  simp only [removeLinks]
  rw [mem_foldl_osetInsert]
  simp only [List.not_mem_nil, or_false, List.mem_map, List.mem_filter,
    decide_eq_true_eq]
  constructor
  · rintro ⟨y, ⟨hy, hyne⟩, hxy⟩
    have hyne2 : ¬ y.tgt = i := hyne
    by_cases hcase : i < y.tgt
    · rw [if_pos hcase, Edge.mk.injEq] at hxy
      obtain ⟨h1, h2⟩ := hxy
      right
      refine ⟨?_, by omega⟩
      have h3 : Edge.mk (et + 1) ew = y := by
        have h4 : et + 1 = y.tgt := by omega
        rw [h4, ← h2]
      rw [h3]
      exact hy
    · rw [if_neg hcase] at hxy
      subst hxy
      have h5 : ¬ et = i := hyne2
      have h6 : ¬ i < et := hcase
      exact Or.inl ⟨hy, by omega⟩
  · rintro (⟨he, hlt⟩ | ⟨he, hge⟩)
    · refine ⟨Edge.mk et ew, ⟨he, ?_⟩, ?_⟩
      · show ¬ et = i
        omega
      · rw [if_neg (show ¬ i < et by omega)]
    · refine ⟨Edge.mk (et + 1) ew, ⟨he, ?_⟩, ?_⟩
      · show ¬ et + 1 = i
        omega
      · rw [if_pos (show i < et + 1 by omega)]
        simp

/-- Positional reading of modifyNth. -/
theorem getElem?_modifyNth {α : Type} (f : α → α) :
    ∀ (l : List α) (i k : Nat),
      (modifyNth f i l)[k]? = if k = i then (l[k]?).map f else l[k]? := by
  intro l
  induction l with
  | nil => intro i k; simp [modifyNth]
  | cons a t ih =>
    intro i k
    cases i with
    | zero =>
      cases k with
      | zero => simp [modifyNth]
      | succ k2 => simp [modifyNth]
    | succ i2 =>
      cases k with
      | zero => simp [modifyNth]
      | succ k2 =>
        simp only [modifyNth, List.getElem?_cons_succ, ih i2 k2]
        by_cases h : k2 = i2
        · simp [h]
        · rw [if_neg h, if_neg (by omega)]

/-- modifyNth through a value-preserving rewrite leaves the value list
unchanged. -/
theorem values_modifyNth (f : Node T W → Node T W)
    (hf : ∀ n, (f n).value = n.value) :
    ∀ (i : Nat) (l : List (Node T W)),
      (modifyNth f i l).map Node.value = l.map Node.value := by
  intro i
  induction i with
  | zero =>
    intro l
    cases l with
    | nil => rfl
    | cons a t => simp [modifyNth, hf]
  | succ i2 ih =>
    intro l
    cases l with
    | nil => rfl
    | cons a t => simp [modifyNth, ih t]

/-- A successful findNode scan yields the node at the reported position,
and that node carries the sought value. -/
theorem findIdxAux_some [DecidableEq T] (v : T) :
    ∀ (l : List (Node T W)) (i : Nat), findIdxAux v l = some i →
      ∃ n, l[i]? = some n ∧ n.value = v := by
  intro l
  induction l with
  | nil => intro i h; simp [findIdxAux] at h
  | cons n rest ih =>
    intro i h
    simp only [findIdxAux] at h
    split_ifs at h with hv
    · obtain rfl : 0 = i := Option.some.inj h
      exact ⟨n, by simp, hv⟩
    · rw [Option.map_eq_some'] at h
      obtain ⟨i0, hi0, rfl⟩ := h
      obtain ⟨m, hm, hmv⟩ := ih i0 hi0
      exact ⟨m, by simpa using hm, hmv⟩

/-- The findNode scan succeeds exactly on the stored values. -/
theorem findIdxAux_isSome_iff [DecidableEq T] (v : T) :
    ∀ l : List (Node T W),
      (∃ i, findIdxAux v l = some i) ↔ v ∈ l.map Node.value := by
  intro l
  induction l with
  | nil => simp [findIdxAux]
  | cons n rest ih =>
    simp only [findIdxAux, List.map_cons, List.mem_cons]
    split_ifs with hv
    · simp only [Option.some.injEq]
      constructor
      · intro _; left; exact hv.symm
      · intro _; exact ⟨0, rfl⟩
    · simp only [Option.map_eq_some']
      constructor
      · rintro ⟨i, i0, hi0, rfl⟩
        right
        exact ih.mp ⟨i0, hi0⟩
      · rintro (h | h)
        · exact absurd h.symm hv
        · obtain ⟨i0, hi0⟩ := ih.mpr h
          exact ⟨i0 + 1, i0, hi0, rfl⟩

/-- Under duplicate-free values, the findNode scan recovers the position of
any stored node from its value. -/
theorem findIdxAux_nodup [DecidableEq T] (v : T) :
    ∀ (l : List (Node T W)) (i : Nat) (n : Node T W),
      (l.map Node.value).Nodup → l[i]? = some n → n.value = v →
      findIdxAux v l = some i := by
  intro l
  induction l with
  | nil => intro i n _ h; simp at h
  | cons m rest ih =>
    intro i n hnd hget hval
    rw [List.map_cons, List.nodup_cons] at hnd
    cases i with
    | zero =>
      rw [List.getElem?_cons_zero] at hget
      obtain rfl : m = n := Option.some.inj hget
      simp [findIdxAux, hval]
    | succ i2 =>
      rw [List.getElem?_cons_succ] at hget
      have hmem : n.value ∈ rest.map Node.value :=
        List.mem_map_of_mem Node.value (List.getElem?_mem hget)
      have hne : ¬ m.value = v := by
        intro he
        apply hnd.1
        have h3 : m.value = n.value := by rw [he, hval]
        rw [h3]
        exact hmem
      simp only [findIdxAux, if_neg hne, ih i2 n hnd.2 hget hval,
        Option.map_some']

/-- The findNode scan only looks at the stored values. -/
theorem findIdxAux_congr [DecidableEq T] (v : T) :
    ∀ (l1 l2 : List (Node T W)),
      l1.map Node.value = l2.map Node.value →
      findIdxAux v l1 = findIdxAux v l2 := by
  intro l1
  induction l1 with
  | nil =>
    intro l2 h
    cases l2 with
    | nil => rfl
    | cons b t => simp at h
  | cons a t ih =>
    intro l2 h
    cases l2 with
    | nil => simp at h
    | cons b t2 =>
      simp only [List.map_cons, List.cons.injEq] at h
      simp only [findIdxAux, h.1, ih t2 h.2]

/-- Appending a node holding the sought value to a store that lacks it makes
the scan stop exactly at the old length. -/
theorem findIdxAux_append_self [DecidableEq T] (v : T) (adj : List (Edge W)) :
    ∀ l : List (Node T W), findIdxAux v l = none →
      findIdxAux v (l ++ [⟨v, adj⟩]) = some l.length := by
  intro l
  induction l with
  | nil => intro _; simp [findIdxAux]
  | cons n rest ih =>
    intro h
    simp only [findIdxAux] at h
    by_cases hv : n.value = v
    · rw [if_pos hv] at h
      simp at h
    · rw [if_neg hv] at h
      rw [Option.map_eq_none'] at h
      simp only [List.cons_append, findIdxAux, if_neg hv, List.append_eq,
        ih h, Option.map_some', List.length_cons]

/-- A successful option-valued index read is in bounds. -/
theorem lt_of_getElem?_some {α : Type} {l : List α} {i : Nat} {a : α}
    (h : l[i]? = some a) : i < l.length := by
  by_contra hc
  rw [List.getElem?_eq_none (by omega)] at h
  cases h

/-- A value is stored in the graph exactly when findNode succeeds on it. -/
theorem mem_values_iff_findNode [DecidableEq T] (g : Graph T W) (v : T) :
    v ∈ g.values ↔ ∃ i, findNode g v = some i :=
  (findIdxAux_isSome_iff v g.nodes).symm

/-- Characterization of erase(value) on a stored value: the call reports
success, removes one node, and every surviving node keeps its value while
its adjacency set is exactly the reindexed image of its old one. -/
theorem eraseValue_characterization [DecidableEq T] [LinearOrder W]
    (g : Graph T W) (v : T) (i : Nat) (h : findNode g v = some i) :
    (eraseValue g v).2 = true ∧
    (eraseValue g v).1.nodes.length + 1 = g.nodes.length ∧
    ∀ j n2, (eraseValue g v).1.nodes[j]? = some n2 →
      ∃ n, g.nodes[if j < i then j else j + 1]? = some n ∧
        n2.value = n.value ∧
        ∀ e : Edge W, e ∈ n2.adj ↔
          ((e ∈ n.adj ∧ e.tgt < i) ∨
           (Edge.mk (e.tgt + 1) e.weight ∈ n.adj ∧ i ≤ e.tgt)) := by
  have hlt : i < g.nodes.length := by
    obtain ⟨n, hn, _⟩ := findIdxAux_some v g.nodes i h
    exact lt_of_getElem?_some hn
  refine ⟨by simp [eraseValue, h], ?_, ?_⟩
  · simp only [eraseValue, h]
    rw [List.length_eraseIdx_of_lt]
    · simp only [removeAllLinksTo, List.length_map]
      omega
    · simp only [removeAllLinksTo, List.length_map]
      exact hlt
  · intro j n2 hj
    simp only [eraseValue, h, removeAllLinksTo] at hj
    rw [List.getElem?_eraseIdx] at hj
    by_cases hji : j < i
    · rw [if_pos hji, List.getElem?_map, Option.map_eq_some'] at hj
      obtain ⟨n, hn, rfl⟩ := hj
      rw [if_pos hji]
      exact ⟨n, hn, rfl, fun e => mem_removeLinks i n.adj e⟩
    · rw [if_neg hji, List.getElem?_map, Option.map_eq_some'] at hj
      obtain ⟨n, hn, rfl⟩ := hj
      rw [if_neg hji]
      exact ⟨n, hn, rfl, fun e => mem_removeLinks i n.adj e⟩

/-- The loop body of operator== succeeds on a node exactly when the
right-hand graph locates the node's value and the value-level adjacency
sets agree. -/
theorem nodeOKB_iff [LinearOrder T] [LinearOrder W] (g1 g2 : Graph T W)
    (n : Node T W) :
    nodeOKB g1 g2 n = true ↔
      ∃ j rn, findNode g2 n.value = some j ∧ g2.nodes[j]? = some rn ∧
        adjValuesOfAdj g1 n.adj = adjValuesOfAdj g2 rn.adj := by
  cases hfn : findNode g2 n.value with
  | none =>
    simp [nodeOKB, hfn]
  | some j =>
    cases hget : g2.nodes[j]? with
    | none => simp [nodeOKB, hfn, hget]
    | some rn => simp [nodeOKB, hfn, hget]

/-- Characterization of operator== for graphs with duplicate-free values:
equality holds exactly when the two graphs store the same set of values and
agree on every value-level adjacency set. -/
theorem graphEq_characterization [LinearOrder T] [LinearOrder W]
    (g1 g2 : Graph T W) (h1 : g1.values.Nodup) (h2 : g2.values.Nodup) :
    graphEq g1 g2 = true ↔
      (g1.values.toFinset = g2.values.toFinset ∧
       ∀ v ∈ g1.values, adjacentValues g1 v = adjacentValues g2 v) := by
  rw [graphEq, Bool.and_eq_true, decide_eq_true_eq, List.all_eq_true]
  constructor
  · rintro ⟨hlen, hall⟩
    have hsub : ∀ v ∈ g1.values, v ∈ g2.values := by
      intro v hv
      obtain ⟨n, hn, rfl⟩ := List.mem_map.mp hv
      obtain ⟨j, rn, hfn, hget, _⟩ := (nodeOKB_iff g1 g2 n).mp (hall n hn)
      exact (mem_values_iff_findNode g2 n.value).mpr ⟨j, hfn⟩
    have hlen2 : g1.values.length = g2.values.length := by
      simp only [Graph.values, List.length_map]
      exact hlen
    have hset : g1.values.toFinset = g2.values.toFinset := by
      apply Finset.eq_of_subset_of_card_le
      · intro x hx
        rw [List.mem_toFinset] at hx ⊢
        exact hsub x hx
      · rw [List.toFinset_card_of_nodup h1, List.toFinset_card_of_nodup h2,
          hlen2]
    refine ⟨hset, ?_⟩
    intro v hv
    obtain ⟨i1, hfn1⟩ := (mem_values_iff_findNode g1 v).mp hv
    obtain ⟨n1, hget1, hval1⟩ := findIdxAux_some v g1.nodes i1 hfn1
    have hn1mem : n1 ∈ g1.nodes := List.getElem?_mem hget1
    obtain ⟨j, rn, hfn2, hget2, hadj⟩ :=
      (nodeOKB_iff g1 g2 n1).mp (hall n1 hn1mem)
    rw [hval1] at hfn2
    simp only [adjacentValues, hfn1, hfn2, hget1, hget2]
    exact hadj
  · rintro ⟨hset, hadj⟩
    have hlen : g1.nodes.length = g2.nodes.length := by
      have e1 := List.toFinset_card_of_nodup h1
      have e2 := List.toFinset_card_of_nodup h2
      have e3 : g1.values.length = g2.values.length := by
        rw [← e1, ← e2, hset]
      simpa only [Graph.values, List.length_map] using e3
    refine ⟨hlen, ?_⟩
    intro n hn
    rw [nodeOKB_iff]
    have hv1 : n.value ∈ g1.values := List.mem_map_of_mem Node.value hn
    have hv2 : n.value ∈ g2.values := by
      rw [← List.mem_toFinset, ← hset, List.mem_toFinset]
      exact hv1
    obtain ⟨j, hfn2⟩ := (mem_values_iff_findNode g2 n.value).mp hv2
    obtain ⟨rn, hget2, hvalrn⟩ := findIdxAux_some n.value g2.nodes j hfn2
    refine ⟨j, rn, hfn2, hget2, ?_⟩
    obtain ⟨k, hk⟩ := List.mem_iff_getElem?.mp hn
    have hfn1 : findNode g1 n.value = some k :=
      findIdxAux_nodup n.value g1.nodes k n h1 hk rfl
    have hva := hadj n.value hv1
    simp only [adjacentValues, hfn1, hfn2, hk, hget2] at hva
    exact hva

/-- Two nodes and one edge, inserted in one order. -/
def gOrderA : Graph ℤ ℤ := (insertEdge (insertList Graph.empty [1, 2]) 1 2 5).1

/-- The same two nodes and edge, with the nodes inserted in the other
order. -/
def gOrderB : Graph ℤ ℤ := (insertEdge (insertList Graph.empty [2, 1]) 1 2 5).1

/-- gOrderA with one extra edge. -/
def gExtra : Graph ℤ ℤ := (insertEdge gOrderA 2 1 5).1

/-- Same nodes and same neighbor values with weight 1. -/
def gWeightA : Graph ℤ ℤ := (insertEdge (insertList Graph.empty [1, 2]) 1 2 1).1

/-- Same nodes and same neighbor values with weight 7. -/
def gWeightB : Graph ℤ ℤ := (insertEdge (insertList Graph.empty [1, 2]) 1 2 7).1

/-- Witness graphs for the equality claims, distinct from the example
graphs above. -/
def gW4a : Graph ℤ ℤ := (insertEdge (insertList Graph.empty [7, 8]) 7 8 2).1

/-- The same graph as gW4a with the nodes inserted in the other order. -/
def gW4b : Graph ℤ ℤ := (insertEdge (insertList Graph.empty [8, 7]) 7 8 2).1

/-- A weight-variant witness graph. -/
def gW10a : Graph ℤ ℤ := (insertEdge (insertList Graph.empty [3, 4]) 3 4 2).1

/-- The same graph as gW10a with a different edge weight. -/
def gW10b : Graph ℤ ℤ := (insertEdge (insertList Graph.empty [3, 4]) 3 4 9).1

/-- C1: erasing a stored value v succeeds, and every surviving node's
adjacency set is the old one with edges targeting v's index dropped and
every higher target decremented with its weight preserved; in particular,
on the graph with nodes a, b, c, d (1, 2, 3, 4) and edges a to c, b to c,
b to d, erasing b leaves the value-level adjacency of a exactly the
singleton c. -/
theorem erase_reindex_spec :
    (∀ (T W : Type) [DecidableEq T] [LinearOrder W]
        (g : Graph T W) (v : T) (i : Nat), findNode g v = some i →
        (eraseValue g v).2 = true ∧
        (eraseValue g v).1.nodes.length + 1 = g.nodes.length ∧
        ∀ j n2, (eraseValue g v).1.nodes[j]? = some n2 →
          ∃ n, g.nodes[if j < i then j else j + 1]? = some n ∧
            n2.value = n.value ∧
            ∀ e : Edge W, e ∈ n2.adj ↔
              ((e ∈ n.adj ∧ e.tgt < i) ∨
               (Edge.mk (e.tgt + 1) e.weight ∈ n.adj ∧ i ≤ e.tgt))) ∧
    ((eraseValue gReindex 2).2 = true ∧
     adjacentValues (eraseValue gReindex 2).1 1 = [3]) := by
  constructor
  · intro T W instT instW g v i h
    exact eraseValue_characterization g v i h
  · exact ⟨by decide, by decide⟩

/-- Witness for C1: the general part applied to the concrete reindex
example, with its hypothesis discharged by computation. -/
theorem erase_reindex_spec_witness :
    (eraseValue gReindex 2).2 = true ∧
    (eraseValue gReindex 2).1.nodes.length + 1 = gReindex.nodes.length := by
  have h := erase_reindex_spec.1 ℤ ℤ gReindex 2 1 (by decide)
  exact ⟨h.1, h.2.1⟩

/-- C4: operator== holds exactly when the two graphs store the same set of
node values and agree on every value-level adjacency set (stated for graphs
whose values are duplicate-free, the invariant the public interface
maintains); consequently the same nodes and edges inserted in different
orders compare equal, and an extra edge breaks equality. -/
theorem operator_eq_spec :
    (∀ (T W : Type) [LinearOrder T] [LinearOrder W] (g1 g2 : Graph T W),
        g1.values.Nodup → g2.values.Nodup →
        (graphEq g1 g2 = true ↔
          (g1.values.toFinset = g2.values.toFinset ∧
           ∀ v ∈ g1.values, adjacentValues g1 v = adjacentValues g2 v))) ∧
    (graphEq gOrderA gOrderB = true ∧ graphEq gOrderA gExtra = false) := by
  constructor
  · intro T W instT instW g1 g2 h1 h2
    exact graphEq_characterization g1 g2 h1 h2
  · exact ⟨by decide, by decide⟩

/-- Witness for C4: the characterization applied to two concrete graphs,
hypotheses discharged by computation. -/
theorem operator_eq_spec_witness : graphEq gW4a gW4b = true :=
  (operator_eq_spec.1 ℤ ℤ gW4a gW4b (by decide) (by decide)).mpr (by decide)

/-- C10: operator== is insensitive to edge weights: same stored values and
same value-level neighbor sets force equality, whatever the weights are;
in particular two concrete graphs differing only in an edge weight compare
equal. -/
theorem graph_eq_weight_insensitive :
    (∀ (T W : Type) [LinearOrder T] [LinearOrder W] (g1 g2 : Graph T W),
        g1.values.Nodup → g2.values.Nodup →
        g1.values.toFinset = g2.values.toFinset →
        (∀ v ∈ g1.values, adjacentValues g1 v = adjacentValues g2 v) →
        graphEq g1 g2 = true) ∧
    graphEq gWeightA gWeightB = true := by
  constructor
  · intro T W instT instW g1 g2 h1 h2 hset hadj
    exact (graphEq_characterization g1 g2 h1 h2).mpr ⟨hset, hadj⟩
  · decide

/-- Witness for C10: the general part applied to two concrete graphs whose
only difference is an edge weight. -/
theorem graph_eq_weight_insensitive_witness : graphEq gW10a gW10b = true :=
  graph_eq_weight_insensitive.1 ℤ ℤ gW10a gW10b (by decide) (by decide)
    (by decide) (by decide)

/-- erase_edge reports true whenever both endpoints resolve. -/
theorem eraseEdge_returns_true [DecidableEq T] (g : Graph T W) (a b : T)
    (i j : Nat) (hi : findNode g a = some i) (hj : findNode g b = some j) :
    (eraseEdge g a b).2 = true := by
  simp [eraseEdge, hi, hj]

/-- C5: erase_edge fails and leaves the graph untouched when either
endpoint value is absent; when both are present it reports true, keeps all
node values, rewrites only the source node by dropping every edge targeting
the target node's position regardless of weight, and a second identical
call still reports true. -/
theorem erase_edge_spec :
    ∀ (T W : Type) [DecidableEq T] (g : Graph T W) (a b : T),
      ((findNode g a = none ∨ findNode g b = none) →
        eraseEdge g a b = (g, false)) ∧
      (∀ i j, findNode g a = some i → findNode g b = some j →
        (eraseEdge g a b).2 = true ∧
        ((eraseEdge g a b).1).values = g.values ∧
        (∀ k, ¬ k = i → ((eraseEdge g a b).1).nodes[k]? = g.nodes[k]?) ∧
        (∀ n, g.nodes[i]? = some n →
          ((eraseEdge g a b).1).nodes[i]? =
            some ⟨n.value, n.adj.filter fun e => decide (e.tgt ≠ j)⟩) ∧
        (eraseEdge (eraseEdge g a b).1 a b).2 = true) := by
  intro T W instT g a b
  constructor
  · rintro (h | h)
    · simp [eraseEdge, h]
    · cases hfa : findNode g a with
      | none => simp [eraseEdge, hfa]
      | some i => simp [eraseEdge, hfa, h]
  · intro i j hi hj
    have hval : ((eraseEdge g a b).1).values = g.values := by
      simp only [eraseEdge, hi, hj, Graph.values]
      exact values_modifyNth
        (fun n => ⟨n.value, n.adj.filter fun e => decide (e.tgt ≠ j)⟩)
        (fun n => rfl) i g.nodes
    refine ⟨eraseEdge_returns_true g a b i j hi hj, hval, ?_, ?_, ?_⟩
    · intro k hk
      simp only [eraseEdge, hi, hj]
      rw [getElem?_modifyNth, if_neg hk]
    · intro n hn
      simp only [eraseEdge, hi, hj]
      rw [getElem?_modifyNth, if_pos rfl, hn, Option.map_some']
    · have hca := findIdxAux_congr a ((eraseEdge g a b).1.nodes) g.nodes hval
      have hcb := findIdxAux_congr b ((eraseEdge g a b).1.nodes) g.nodes hval
      have hfa2 : findNode (eraseEdge g a b).1 a = some i := by
        show findIdxAux a (eraseEdge g a b).1.nodes = some i
        rw [hca]
        exact hi
      have hfb2 : findNode (eraseEdge g a b).1 b = some j := by
        show findIdxAux b (eraseEdge g a b).1.nodes = some j
        rw [hcb]
        exact hj
      exact eraseEdge_returns_true (eraseEdge g a b).1 a b i j hfa2 hfb2

/-- A present-endpoint witness graph for erase_edge. -/
def gW5 : Graph ℤ ℤ := (insertEdge (insertList Graph.empty [1, 2]) 1 2 3).1

/-- Witness for C5: both endpoints of gW5 exist, so erase_edge reports
true; the hypotheses are discharged by computation. -/
theorem erase_edge_spec_witness : (eraseEdge gW5 1 2).2 = true :=
  ((erase_edge_spec ℤ ℤ gW5 1 2).2 0 1 (by decide) (by decide)).1

/-- A found value makes insert return its position with no mutation. -/
theorem insertNode_found [DecidableEq T] (g : Graph T W) (v : T) (i : Nat)
    (h : findNode g v = some i) : insertNode g v = (g, i, false) := by
  simp [insertNode, h]

/-- C8: inserting the same value twice leaves the graph of the first insert
untouched, reports inserted = false on the second call, and keeps the size
unchanged. -/
theorem insert_twice_idempotent :
    ∀ (T W : Type) [DecidableEq T] (g : Graph T W) (v : T),
      ((insertNode (insertNode g v).1 v).2).2 = false ∧
      (insertNode (insertNode g v).1 v).1 = (insertNode g v).1 ∧
      ((insertNode (insertNode g v).1 v).1).size = ((insertNode g v).1).size := by
  intro T W instT g v
  cases hf : findNode g v with
  | some i =>
    have h1 := insertNode_found g v i hf
    simp [h1]
  | none =>
    have hf2 : findNode (insertNode g v).1 v = some g.nodes.length := by
      have hg1 : (insertNode g v).1 = ⟨g.nodes ++ [⟨v, []⟩]⟩ := by
        simp [insertNode, hf]
      rw [hg1]
      exact findIdxAux_append_self v [] g.nodes hf
    have h2 := insertNode_found (insertNode g v).1 v g.nodes.length hf2
    rw [h2]
    exact ⟨rfl, rfl, rfl⟩

/-- One-node graph used for the empty-range counterexample. -/
def gOne : Graph ℤ ℤ := (insertNode Graph.empty 5).1

/-- C9 counterexample: erasing the empty range starting at the begin
position of a one-node graph leaves the graph unchanged but returns
position 0, not the end position 1: the claim that an empty range erase
returns the end iterator is false on this input. -/
theorem erase_empty_range_counterexample :
    (eraseRange gOne 0 0).1 = gOne ∧ (eraseRange gOne 0 0).2 = 0 ∧
    gOne.nodes.length = 1 ∧
    decide ((eraseRange gOne 0 0).2 = gOne.nodes.length) = false :=
  ⟨by decide, by decide, by decide, by decide⟩

/-- C9 amended: erase at the end position is a no-op returning the end
position, and erasing an empty range at p is a no-op returning p itself,
which equals the end position only when p is the end. -/
theorem erase_noop_spec :
    ∀ (T W : Type) [LinearOrder W] (g : Graph T W) (p : Nat),
      p ≤ g.nodes.length →
      eraseIter g g.nodes.length = (g, g.nodes.length) ∧
      eraseRange g p p = (g, p) := by
  intro T W instW g p hp
  constructor
  · simp [eraseIter]
  · simp only [eraseRange, Nat.sub_self]
    rw [show List.range' p 0 = [] from rfl, List.foldl_nil,
      List.take_append_drop]

/-- A two-node witness graph for the no-op erase forms. -/
def gW9 : Graph ℤ ℤ := insertList Graph.empty [6, 7]

/-- Witness for C9: the amended no-op claim applied at a concrete interior
position, with the bound discharged by computation. -/
theorem erase_noop_spec_witness : eraseRange gW9 1 1 = (gW9, 1) :=
  (erase_noop_spec ℤ ℤ gW9 1 (by decide)).2

/-- C2 evaluation: from the empty graph, inserting 10, 20, 30, adding the
edge from 10 to 30, and erasing the iterator range covering 20 and 30 via
the public range erase leaves the surviving node with an edge whose target
equals the new size, so the positional invariant fails on a graph reachable
by public operations alone. -/
theorem erase_range_invariant_violation :
    edgesValidB gThree = true ∧
    (eraseRange gThree 1 3).1.nodes.length = 1 ∧
    edgesValidB (eraseRange gThree 1 3).1 = false :=
  ⟨by decide, by decide, by decide⟩

/-- C3 evaluation: on four nodes 1, 2, 3, 4 with the single edge from 1 to
4, erasing the range covering nodes 2 and 3 drops the edge entirely, while
erasing 2 and then 3 one at a time keeps it correctly renumbered; the two
results differ, so the range erase is not the sequential erase. -/
theorem erase_range_vs_sequential :
    decide ((eraseRange gFour 1 3).1 =
      (eraseValue (eraseValue gFour 2).1 3).1) = false ∧
    adjacentValues (eraseRange gFour 1 3).1 1 = [] ∧
    adjacentValues (eraseValue (eraseValue gFour 2).1 3).1 1 = [4] :=
  ⟨by decide, by decide, by decide⟩

/-- C6: on the eight-node scenario graph, the all-destinations Dijkstra
gives distance 4 from 11 to 44, the target-directed Dijkstra returns the
path 11, 55, 66, 77, 44, and asking for a path to the absent value 45
returns the empty path. -/
theorem dijkstra_concrete_scenario :
    ((dijkstraAll gDijkstra 11 100).bind fun m => alookup m 44) = some 4 ∧
    dijkstraTarget gDijkstra 11 44 0 100 100 = some [11, 55, 66, 77, 44] ∧
    dijkstraTarget gDijkstra 11 45 0 100 100 = some [] :=
  ⟨by decide, by decide, by decide⟩

/-- Once the predecessor walk reaches the default-constructed value 0 with
start 1 and an empty predecessor map, it stays there for ever, whatever
fuel remains. -/
theorem recon_absorbed_at_default :
    ∀ (f : Nat) (acc : List ℤ),
      recon ([] : List (ℤ × ℤ)) 0 1 f 0 acc = none := by
  intro f
  induction f with
  | zero => intro acc; rfl
  | succ n ih => intro acc; exact ih (0 :: acc)

/-- C7 evaluation: on the two-node graph with no edges, both endpoints are
present, yet the target-directed Dijkstra never returns however much
reconstruction fuel it is given: the predecessor walk loops on
default-constructed map entries instead of producing the empty path. -/
theorem dijkstra_unreachable_target_diverges :
    ∀ reconFuel : Nat, dijkstraTarget gTwo 1 2 0 10 reconFuel = none := by
  intro rf
  have hred : dijkstraTarget gTwo 1 2 0 10 rf =
      recon ([] : List (ℤ × ℤ)) 0 1 rf 2 [] := rfl
  rw [hred]
  cases rf with
  | zero => rfl
  | succ n => exact recon_absorbed_at_default n [2]


end DirGraph
